import Mathlib

/-!
Verification of the streaming transport and transcript-assembly core of the
rfpresponse-agent frontend.

Two pieces of source code are embedded:

* `streamPost` (src/frontend/src/lib/api.ts): an async generator that reads
  byte chunks from a chunked HTTP response, incrementally UTF-8-decodes them
  (`TextDecoder` with `stream: true`), accumulates a text `buffer`, splits it
  on `"\n"`, keeps the segment after the last newline as the new buffer, and
  for each complete line yields `line.slice(6)` when the line starts with
  `"data: "`, or returns (terminating the generator) when the line starts
  with `"event: done"`.

* `handleSend` (src/frontend/src/app/(dashboard)/projects/[id]/chat/page.tsx):
  the transcript controller.  It rejects a send when the trimmed input is
  empty, no conversation is active, or a stream is already in flight;
  otherwise it optimistically appends a user message with the trimmed input,
  accumulates streamed payloads into `fullText` (mirrored into `streamText`),
  and on completion appends the assistant message, or on a thrown transport
  error replaces the pending text with a fixed error message; the `streaming`
  flag is cleared in the `finally` block.

Text is modelled as lists of Unicode code points (`List Nat`); the wire is a
list of byte chunks (`List (List Nat)`).  JavaScript strings are sequences of
UTF-16 code units, but every string handled here is manipulated only by
concatenation, splitting on `"\n"`, prefix tests against ASCII markers, and
`slice(6)` past an ASCII marker, all of which commute with the bijection
between code-unit sequences and code-point sequences, so the code-point
model is faithful.
-/

/-- Protocol frames decoded from the SSE-like stream, as in the spec's data
model: `Data` carries one line's payload (code points), `Done` is the
terminal marker, `Error` a transport failure.  The generator in the source
yields payloads and returns on the terminal marker; it never yields an
error frame (transport failures are thrown instead), which is proved below. -/
inductive Frame where
  | data : List Nat → Frame
  | done : Frame
  | error : List Nat → Frame
deriving DecidableEq

/-- `true` exactly for `Frame.error`. -/
def Frame.isErrB : Frame → Bool
  | Frame.error _ => true
  | _ => false

/-- Code points of a string literal.  For ASCII text these coincide with its
UTF-8 bytes, so `asciiB` is used both to build wire chunks and to spell
expected payloads in the concrete test vectors. -/
def asciiB (s : String) : List Nat := s.toList.map Char.toNat

/-- The `"data: "` marker tested by `line.startsWith("data: ")`. -/
def dataMark : List Nat := asciiB "data: "

/-- The `"event: done"` marker tested by `line.startsWith("event: done")`. -/
def doneMark : List Nat := asciiB "event: done"

/-- Decoder state of one `streamPost` run: `dcarry` is the pending partial
multi-byte sequence inside the `TextDecoder`, `buffer` the `buffer` variable
(text after the last newline), `frames` the frames produced so far in order,
and `closed` records that the generator has returned (after an
`"event: done"` line). -/
structure DecState where
  dcarry : List Nat
  buffer : List Nat
  frames : List Frame
  closed : Bool
deriving DecidableEq

/-- Initial decoder state: empty decoder carry, empty buffer, no frames. -/
def initDec : DecState := ⟨[], [], [], false⟩

/-- One complete line of the `for (const line of lines)` loop body: when the
generator has already returned nothing happens; a `"data: "` line yields its
payload (`line.slice(6)`, here `drop 6`); an `"event: done"` line produces
the terminal frame and returns (sets `closed`); any other line is ignored. -/
def processLine (s : DecState) (line : List Nat) : DecState :=
  if s.closed then s
  else if dataMark.isPrefixOf line then
    { s with frames := s.frames ++ [Frame.data (line.drop 6)] }
  else if doneMark.isPrefixOf line then
    { s with frames := s.frames ++ [Frame.done], closed := true }
  else s

/-- `buffer.split("\n")` on code points: splits at every newline (code point
10), keeping empty segments, and always returns at least one segment. -/
def splitNl : List Nat → List (List Nat)
  | [] => [[]]
  | c :: cs =>
    if c = 10 then [] :: splitNl cs
    else
      match splitNl cs with
      | [] => [[c]]
      | z :: zs => (c :: z) :: zs

/-- Per-byte step of the WHATWG UTF-8 decoder underlying `TextDecoder`:
given the bytes of the pending (incomplete) sequence and the next byte,
either extend the pending sequence or emit a decoded code point.  The
continuation ranges (`E0 A0-BF`, `ED 80-9F`, `F0 90-BF`, `F4 80-8F`)
follow the WHATWG specification, so on valid UTF-8 input this step agrees
exactly with `TextDecoder`.  On invalid input `TextDecoder` emits U+FFFD
and may reprocess the offending byte; this model approximates that case by
emitting U+FFFD and consuming the byte, which is irrelevant for the claims
(they concern well-formed streams, and the invalid branches are unreachable
from valid input). -/
def utf8ByteStep (dc : List Nat) (b : Nat) : List Nat × Option Nat :=
  match dc with
  | [] =>
    if b ≤ 0x7F then ([], some b)
    else if 0xC2 ≤ b && b ≤ 0xDF then ([b], none)
    else if 0xE0 ≤ b && b ≤ 0xEF then ([b], none)
    else if 0xF0 ≤ b && b ≤ 0xF4 then ([b], none)
    else ([], some 0xFFFD)
  | [l] =>
    if l ≤ 0xDF then
      if 0x80 ≤ b && b ≤ 0xBF then ([], some ((l - 0xC0) * 0x40 + (b - 0x80)))
      else ([], some 0xFFFD)
    else
      if (if l = 0xE0 then 0xA0 ≤ b && b ≤ 0xBF
          else if l = 0xED then 0x80 ≤ b && b ≤ 0x9F
          else if l = 0xF0 then 0x90 ≤ b && b ≤ 0xBF
          else if l = 0xF4 then 0x80 ≤ b && b ≤ 0x8F
          else 0x80 ≤ b && b ≤ 0xBF) then ([l, b], none)
      else ([], some 0xFFFD)
  | [l, m] =>
    if 0x80 ≤ b && b ≤ 0xBF then
      if l ≤ 0xEF then
        ([], some ((l - 0xE0) * 0x1000 + (m - 0x80) * 0x40 + (b - 0x80)))
      else ([l, m, b], none)
    else ([], some 0xFFFD)
  | [l, m, n] =>
    if 0x80 ≤ b && b ≤ 0xBF then
      ([], some ((l - 0xF0) * 0x40000 + (m - 0x80) * 0x1000 + (n - 0x80) * 0x40 + (b - 0x80)))
    else ([], some 0xFFFD)
  | _ => ([], some 0xFFFD)

/-- `decoder.decode(value, { stream: true })`: run the per-byte UTF-8 step
over one chunk, returning the decoded code points and the new pending
sequence carried to the next chunk. -/
def decodeStream (dc : List Nat) : List Nat → List Nat × List Nat
  | [] => ([], dc)
  | b :: bs =>
    match utf8ByteStep dc b with
    | (dc2, none) => decodeStream dc2 bs
    | (dc2, some c) =>
      let r := decodeStream dc2 bs
      (c :: r.1, r.2)

/-- The text-handling part of one iteration of the `while (true)` read loop
of `streamPost`, applied to the code points decoded from one chunk:
`buffer += text`, `lines = buffer.split("\n")`, `buffer = lines.pop() || ""`,
then the `for (const line of lines)` loop over the complete lines. -/
def chunkBody (s : DecState) (text : List Nat) : DecState :=
  let buf := s.buffer ++ text
  let lines := splitNl buf
  let newBuffer := (lines.getLast?).getD []
  (lines.dropLast).foldl processLine { s with buffer := newBuffer }

/-- One full iteration of the read loop of `streamPost` on one raw chunk.
When the generator has already returned (`closed`), later chunks are never
consumed; otherwise the chunk is incrementally decoded and its text
processed by `chunkBody`. -/
def chunkStep (s : DecState) (chunk : List Nat) : DecState :=
  if s.closed then s
  else
    let d := decodeStream s.dcarry chunk
    chunkBody { s with dcarry := d.2 } d.1

/-- The frames produced by one `streamPost` run over a chunk sequence ending
in a clean end-of-stream (`reader.read()` reporting `done`, which simply
breaks the loop: the remaining buffer is discarded and nothing further is
emitted). -/
def streamPostFrames (chunks : List (List Nat)) : List Frame :=
  (chunks.foldl chunkStep initDec).frames

/-- Byte-at-a-time reformulation of the decoder used in the proofs: a code
point completed by `utf8ByteStep` is either appended to the buffer or, on a
newline, the buffered line is processed.  Stated over single code points so
that processing a chunk list is literally a fold over the concatenation of
the chunks. -/
def charStep (s : DecState) (c : Nat) : DecState :=
  if s.closed then s
  else if c = 10 then { processLine s s.buffer with buffer := [] }
  else { s with buffer := s.buffer ++ [c] }

/-- Byte-at-a-time step: feed one byte to the UTF-8 decoder and, if a code
point is completed, to `charStep`. -/
def byteStep (s : DecState) (b : Nat) : DecState :=
  match utf8ByteStep s.dcarry b with
  | (dc2, none) => { s with dcarry := dc2 }
  | (dc2, some c) => { charStep s c with dcarry := dc2 }

/-- Structural well-formedness of a UTF-8 byte sequence (the encoding of
some sequence of Unicode scalar values), following the WHATWG byte ranges. -/
def validUtf8 : List Nat → Bool
  | [] => true
  | b :: r =>
    if b ≤ 0x7F then validUtf8 r
    else
      match r with
      | [] => false
      | c :: r2 =>
        if 0xC2 ≤ b && b ≤ 0xDF then (0x80 ≤ c && c ≤ 0xBF) && validUtf8 r2
        else
          match r2 with
          | [] => false
          | d :: r3 =>
            if b = 0xE0 then
              (0xA0 ≤ c && c ≤ 0xBF) && (0x80 ≤ d && d ≤ 0xBF) && validUtf8 r3
            else if b = 0xED then
              (0x80 ≤ c && c ≤ 0x9F) && (0x80 ≤ d && d ≤ 0xBF) && validUtf8 r3
            else if 0xE1 ≤ b && b ≤ 0xEF then
              (0x80 ≤ c && c ≤ 0xBF) && (0x80 ≤ d && d ≤ 0xBF) && validUtf8 r3
            else
              match r3 with
              | [] => false
              | e :: r4 =>
                if b = 0xF0 then
                  (0x90 ≤ c && c ≤ 0xBF) && (0x80 ≤ d && d ≤ 0xBF) &&
                    (0x80 ≤ e && e ≤ 0xBF) && validUtf8 r4
                else if 0xF1 ≤ b && b ≤ 0xF3 then
                  (0x80 ≤ c && c ≤ 0xBF) && (0x80 ≤ d && d ≤ 0xBF) &&
                    (0x80 ≤ e && e ≤ 0xBF) && validUtf8 r4
                else if b = 0xF4 then
                  (0x80 ≤ c && c ≤ 0x8F) && (0x80 ≤ d && d ≤ 0xBF) &&
                    (0x80 ≤ e && e ≤ 0xBF) && validUtf8 r4
                else false

/-- Message roles appearing in the chat page (`"user"` / `"assistant"`). -/
inductive Role where
  | user : Role
  | assistant : Role
deriving DecidableEq

/-- A transcript message.  The source's `Message` also carries `id`,
`conversation_id` and `created_at`, which are environment-generated metadata
(`crypto.randomUUID()`, timestamps) never inspected by the controller logic,
so they are elided from the model. -/
structure Message where
  role : Role
  content : List Nat
deriving DecidableEq

/-- The component state read and written by `handleSend`: the `messages`
list, the `input` field, the `streaming` flag and the pending `streamText`
buffer. -/
structure ChatState where
  messages : List Message
  input : List Nat
  streaming : Bool
  streamText : List Nat
deriving DecidableEq

/-- How the stream session ends: `ok` models the `for await` loop finishing
normally, `err` models a transport error thrown after the listed payloads
were consumed (caught by the `catch` block). -/
inductive StreamOutcome where
  | ok : StreamOutcome
  | err : StreamOutcome
deriving DecidableEq

/-- JavaScript `String.prototype.trim` whitespace, restricted to the ASCII
range (space, tab, LF, VT, FF, CR); the non-ASCII trim characters
(U+00A0, U+FEFF, ...) are not modelled. -/
def isWsp (c : Nat) : Bool := c == 32 || c == 9 || c == 10 || c == 11 || c == 12 || c == 13

/-- `input.trim()`: strip whitespace from both ends. -/
def trimN (l : List Nat) : List Nat :=
  ((l.dropWhile isWsp).reverse.dropWhile isWsp).reverse

/-- The message shown by the `catch` block of `handleSend`. -/
def errText : List Nat := asciiB "Error: Failed to get response. Please try again."

/-- The state right after the optimistic updates at the top of `handleSend`:
`setMessages` appends the user message with the trimmed input,
`setInput("")`, `setStreaming(true)`, `setStreamText("")`. -/
def startedState (st : ChatState) : ChatState :=
  { messages := st.messages ++ [{ role := Role.user, content := trimN st.input }],
    input := [], streaming := true, streamText := [] }

/-- The `for await (const chunk of stream)` loop: each payload is appended
to `fullText` and mirrored into `streamText`.  Returns the list of states
published after each payload together with the final `fullText`. -/
def streamLoop (s : ChatState) (full : List Nat) : List (List Nat) → List ChatState × List Nat
  | [] => ([], full)
  | p :: ps =>
    let full2 := full ++ p
    let s2 := { s with streamText := full2 }
    let r := streamLoop s2 full2 ps
    (s2 :: r.1, r.2)

/-- One `handleSend` call, as the sequence of states it publishes.  The
guard `if (!input.trim() || !activeConvId || streaming) return;` makes the
call a no-op (the trace stays at the current state).  Otherwise the trace
is: the optimistic start state, one state per streamed payload, then on
normal completion the state appending the assistant message built from
`fullText` and clearing `streamText`, or on a thrown transport error the
state surfacing the error message; in both cases the `finally` block
finishes by clearing the `streaming` flag.  During the loop only
`streamText` changes, so the state at the end of the loop is the start
state with `streamText` set to the accumulated text. -/
def handleSendTrace (st : ChatState) (conv : Option Nat) (payloads : List (List Nat))
    (out : StreamOutcome) : List ChatState :=
  if (trimN st.input).isEmpty || conv.isNone || st.streaming then [st]
  else
    let st1 := startedState st
    let r := streamLoop st1 [] payloads
    let stEnd := { st1 with streamText := r.2 }
    match out with
    | StreamOutcome.ok =>
      let st2 := { stEnd with
        messages := stEnd.messages ++ [{ role := Role.assistant, content := r.2 }],
        streamText := [] }
      st1 :: r.1 ++ [st2, { st2 with streaming := false }]
    | StreamOutcome.err =>
      let st2 := { stEnd with streamText := errText }
      st1 :: r.1 ++ [st2, { st2 with streaming := false }]

/-- The state left behind by one `handleSend` call. -/
def handleSendFinal (st : ChatState) (conv : Option Nat) (payloads : List (List Nat))
    (out : StreamOutcome) : ChatState :=
  (handleSendTrace st conv payloads out).getLast?.getD st

/-- Observational equivalence of decoder states: same frames, same closed
flag, same decoder carry, and (when the generator has not returned) the
same buffer.  After the generator returns, the buffer is dead state. -/
def SObs (s t : DecState) : Prop :=
  s.frames = t.frames ∧ s.closed = t.closed ∧ s.dcarry = t.dcarry ∧
    (s.closed = false → s.buffer = t.buffer)
/-- Relation between the state of the faithful per-chunk run and the state
of the byte-at-a-time run: frames and closed flag agree, and while the
generator is live the states are identical and the buffer holds no newline.
After the generator returns, decoder carry and buffer are dead state. -/
def DecRel (s t : DecState) : Prop :=
  s.frames = t.frames ∧ s.closed = t.closed ∧
    (s.closed = false → s = t ∧ 10 ∉ s.buffer)
/-- Shape invariant of the pending sequence held by the UTF-8 decoder: it is
a proper prefix of a valid encoded scalar (lead byte in range, continuation
bytes in the ranges mandated by the lead byte).  Holds for every state
reachable from the empty carry. -/
def dcarryOk : List Nat → Prop
  | [] => True
  | [l] => 0xC2 ≤ l ∧ l ≤ 0xF4
  | [l, m] => 0xE0 ≤ l ∧ l ≤ 0xF4 ∧ 0x80 ≤ m ∧ (l = 0xE0 → 0xA0 ≤ m) ∧ (l = 0xF0 → 0x90 ≤ m)
  | [l, m, n] => 0xF0 ≤ l ∧ l ≤ 0xF4 ∧ 0x80 ≤ m ∧ 0x80 ≤ n ∧ (l = 0xF0 → 0x90 ≤ m)
  | _ => False

/-- Shape of the frame list of a reachable decoder state: no error frame is
ever produced; while the generator is live no terminal frame has been
produced; once it has returned, the frame list is some prefix without a
terminal frame followed by exactly one terminal frame, in last position. -/
def framesOk (fs : List Frame) (cl : Bool) : Prop :=
  fs.all (fun f => ! f.isErrB) = true ∧
    (cl = false → fs.count Frame.done = 0) ∧
    (cl = true → ∃ pre, fs = pre ++ [Frame.done] ∧ pre.count Frame.done = 0)

/-- Invariant of every decoder state reachable from `initDec`. -/
def StateOk (s : DecState) : Prop :=
  dcarryOk s.dcarry ∧ 10 ∉ s.buffer ∧ framesOk s.frames s.closed

theorem splitNl_ne_nil (l : List Nat) : splitNl l ≠ [] := by
  match l with
  | [] => simp [splitNl]
  | c :: cs =>
    by_cases h : c = 10
    · simp [splitNl, h]
    · simp only [splitNl, if_neg h]
      match splitNl cs with
      | [] => simp
      | z :: zs => simp

theorem splitNl_no_nl (l : List Nat) : ∀ x ∈ splitNl l, 10 ∉ x := by
  induction l with
  | nil => simp [splitNl]
  | cons c cs ih =>
    by_cases h : c = 10
    · simp only [splitNl, if_pos h, List.mem_cons]
      rintro x (rfl | hx)
      · simp
      · exact ih x hx
    · simp only [splitNl, if_neg h]
      cases hs : splitNl cs with
      | nil => exact absurd hs (splitNl_ne_nil cs)
      | cons z zs =>
        intro x hx
        rcases List.mem_cons.mp hx with rfl | hx2
        · have hz : 10 ∉ z := by
            have := ih z (by rw [hs]; exact List.mem_cons_self z zs)
            exact this
          simp [List.mem_cons, h, hz]
          intro hc
          exact h hc.symm
        · exact ih x (by rw [hs]; exact List.mem_cons.mpr (Or.inr hx2))

theorem splitNl_of_no_nl (l : List Nat) (h : 10 ∉ l) : splitNl l = [l] := by
  induction l with
  | nil => simp [splitNl]
  | cons c cs ih =>
    have hc : c ≠ 10 := fun hc => h (by simp [hc])
    have hcs : 10 ∉ cs := fun hm => h (by simp [hm])
    simp only [splitNl, if_neg hc, ih hcs]

theorem splitNl_append_nl (xs ys : List Nat) (h : 10 ∉ xs) :
    splitNl (xs ++ 10 :: ys) = xs :: splitNl ys := by
  induction xs with
  | nil => simp [splitNl]
  | cons c cs ih =>
    have hc : c ≠ 10 := fun hc => h (by simp [hc])
    have hcs : 10 ∉ cs := fun hm => h (by simp [hm])
    simp only [List.cons_append, splitNl, if_neg hc]
    rw [show cs.append (10 :: ys) = cs ++ 10 :: ys from rfl, ih hcs]

theorem processLine_buffer (s : DecState) (l : List Nat) :
    (processLine s l).buffer = s.buffer := by
  unfold processLine
  by_cases hc : s.closed <;> by_cases h1 : dataMark.isPrefixOf l <;>
    by_cases h2 : doneMark.isPrefixOf l <;> simp [hc, h1, h2]

theorem processLine_dcarry (s : DecState) (l : List Nat) :
    (processLine s l).dcarry = s.dcarry := by
  unfold processLine
  by_cases hc : s.closed <;> by_cases h1 : dataMark.isPrefixOf l <;>
    by_cases h2 : doneMark.isPrefixOf l <;> simp [hc, h1, h2]

theorem processLine_set_buffer (s : DecState) (b l : List Nat) :
    processLine { s with buffer := b } l = { processLine s l with buffer := b } := by
  unfold processLine
  by_cases hc : s.closed <;> by_cases h1 : dataMark.isPrefixOf l <;>
    by_cases h2 : doneMark.isPrefixOf l <;> simp [hc, h1, h2]

theorem processLine_closed (s : DecState) (l : List Nat) (h : s.closed = true) :
    processLine s l = s := by
  simp [processLine, h]

theorem foldl_processLine_closed (ls : List (List Nat)) (s : DecState) (h : s.closed = true) :
    ls.foldl processLine s = s := by
  induction ls with
  | nil => rfl
  | cons l ls ih => simp only [List.foldl_cons, processLine_closed s l h]; exact ih

theorem foldl_processLine_set_buffer (ls : List (List Nat)) (s : DecState) (b : List Nat) :
    ls.foldl processLine { s with buffer := b } = { ls.foldl processLine s with buffer := b } := by
  induction ls generalizing s with
  | nil => rfl
  | cons l ls ih => simp only [List.foldl_cons, processLine_set_buffer, ih]

theorem foldl_processLine_buffer (ls : List (List Nat)) (s : DecState) :
    (ls.foldl processLine s).buffer = s.buffer := by
  induction ls generalizing s with
  | nil => rfl
  | cons l ls ih => simp only [List.foldl_cons, ih, processLine_buffer]

theorem foldl_processLine_dcarry (ls : List (List Nat)) (s : DecState) :
    (ls.foldl processLine s).dcarry = s.dcarry := by
  induction ls generalizing s with
  | nil => rfl
  | cons l ls ih => simp only [List.foldl_cons, ih, processLine_dcarry]

theorem processLine_set_dcarry (s : DecState) (d : List Nat) (l : List Nat) :
    processLine { s with dcarry := d } l = { processLine s l with dcarry := d } := by
  unfold processLine
  by_cases hc : s.closed <;> by_cases h1 : dataMark.isPrefixOf l <;>
    by_cases h2 : doneMark.isPrefixOf l <;> simp [hc, h1, h2]

theorem charStep_closed (s : DecState) (c : Nat) (h : s.closed = true) :
    charStep s c = s := by
  simp [charStep, h]

theorem foldl_charStep_closed (cs : List Nat) (s : DecState) (h : s.closed = true) :
    cs.foldl charStep s = s := by
  induction cs with
  | nil => rfl
  | cons c cs ih => simp only [List.foldl_cons, charStep_closed s c h]; exact ih

theorem charStep_set_dcarry (s : DecState) (d : List Nat) (c : Nat) :
    charStep { s with dcarry := d } c = { charStep s c with dcarry := d } := by
  by_cases hc : s.closed
  · simp [charStep, hc]
  · by_cases h1 : c = 10
    · have hcf : s.closed = false := by simpa using hc
      have hp := processLine_set_dcarry s d s.buffer
      rw [hcf] at hp
      simp [charStep, hcf, h1, hp]
    · simp [charStep, hc, h1]

theorem getLast?_cons_of_ne_nil (a : List Nat) (l : List (List Nat)) (h : l ≠ []) :
    (a :: l).getLast? = l.getLast? := by
  cases l with
  | nil => exact absurd rfl h
  | cons b bs => simp

theorem dropLast_cons_of_ne_nil (a : List Nat) (l : List (List Nat)) (h : l ≠ []) :
    (a :: l).dropLast = a :: l.dropLast := by
  cases l with
  | nil => exact absurd rfl h
  | cons b bs => simp

theorem foldl_byteStep_eq (bs : List Nat) (s : DecState) :
    bs.foldl byteStep s =
      (decodeStream s.dcarry bs).1.foldl charStep
        { s with dcarry := (decodeStream s.dcarry bs).2 } := by
  induction bs generalizing s with
  | nil => simp [decodeStream]
  | cons b bs ih =>
    simp only [List.foldl_cons]
    rcases hstep : utf8ByteStep s.dcarry b with ⟨dc2, copt⟩
    cases copt with
    | none =>
      have hb : byteStep s b = { s with dcarry := dc2 } := by
        simp [byteStep, hstep]
      rw [hb, ih]
      simp [decodeStream, hstep]
    | some c =>
      have hb : byteStep s b = { charStep s c with dcarry := dc2 } := by
        simp [byteStep, hstep]
      rw [hb, ih]
      simp [decodeStream, hstep, charStep_set_dcarry]


theorem chunkBody_closed (s : DecState) (text : List Nat) (h : s.closed = true) :
    chunkBody s text =
      { s with buffer := (splitNl (s.buffer ++ text)).getLast?.getD [] } := by
  simp only [chunkBody]
  exact foldl_processLine_closed _ _ h

theorem chunkBody_newline (s : DecState) (cs : List Nat) (hb : 10 ∉ s.buffer) :
    chunkBody s (10 :: cs) =
      chunkBody { processLine s s.buffer with buffer := [] } cs := by
  have hne := splitNl_ne_nil cs
  simp only [chunkBody, List.nil_append]
  rw [splitNl_append_nl s.buffer cs hb,
    getLast?_cons_of_ne_nil _ _ hne, dropLast_cons_of_ne_nil _ _ hne]
  simp only [List.foldl_cons]
  rw [processLine_set_buffer]

theorem chunkBody_snoc (s : DecState) (c : Nat) (cs : List Nat) :
    chunkBody s (c :: cs) = chunkBody { s with buffer := s.buffer ++ [c] } cs := by
  simp only [chunkBody]
  rw [show s.buffer ++ c :: cs = (s.buffer ++ [c]) ++ cs by simp]

theorem chunkBody_eq_charFold (text : List Nat) (s : DecState)
    (hc : s.closed = false) (hb : 10 ∉ s.buffer) :
    SObs (chunkBody s text) (text.foldl charStep s) := by
  induction text generalizing s with
  | nil =>
    have h1 : chunkBody s [] = s := by
      simp [chunkBody, splitNl_of_no_nl s.buffer hb]
    rw [h1]
    exact ⟨rfl, rfl, rfl, fun _ => rfl⟩
  | cons c cs ih =>
    by_cases hn : c = 10
    · subst hn
      rw [chunkBody_newline s cs hb]
      have hcs : charStep s 10 = { processLine s s.buffer with buffer := [] } := by
        simp [charStep, hc]
      simp only [List.foldl_cons, hcs]
      by_cases h2 : ({ processLine s s.buffer with buffer := [] } : DecState).closed
      · have hfold := foldl_charStep_closed cs _ h2
        rw [hfold, chunkBody_closed _ _ h2]
        refine ⟨rfl, rfl, rfl, fun hcl => ?_⟩
        have hcl2 : (processLine s s.buffer).closed = false := hcl
        have h22 : (processLine s s.buffer).closed = true := h2
        exact absurd (hcl2.symm.trans h22) (by simp)
      · exact ih _ (by simpa using h2) (by simp)
    · rw [chunkBody_snoc s c cs]
      have hcs : charStep s c = { s with buffer := s.buffer ++ [c] } := by
        simp [charStep, hc, hn]
      simp only [List.foldl_cons, hcs]
      refine ih { s with buffer := s.buffer ++ [c] } hc ?_
      intro hmem
      rcases List.mem_append.mp hmem with h | h
      · exact hb h
      · exact hn (List.mem_singleton.mp h).symm

theorem DecState.eqOfFields (s t : DecState) (h1 : s.dcarry = t.dcarry)
    (h2 : s.buffer = t.buffer) (h3 : s.frames = t.frames) (h4 : s.closed = t.closed) :
    s = t := by
  cases s; cases t; simp_all

theorem chunkBody_buffer (s : DecState) (text : List Nat) :
    (chunkBody s text).buffer = (splitNl (s.buffer ++ text)).getLast?.getD [] := by
  simp only [chunkBody, foldl_processLine_buffer]

theorem splitNl_getLast_no_nl (l : List Nat) : 10 ∉ ((splitNl l).getLast?.getD []) := by
  cases h : (splitNl l).getLast? with
  | none => simp
  | some x =>
    have hx : x ∈ splitNl l := List.mem_of_getLast?_eq_some h
    simpa using splitNl_no_nl l x hx


theorem DecRel_step (s t : DecState) (c : List Nat) (h : DecRel s t) :
    DecRel (chunkStep s c) (c.foldl byteStep t) := by
  obtain ⟨hf, hcl, hrest⟩ := h
  by_cases hc : s.closed
  · have h1 : chunkStep s c = s := by simp [chunkStep, hc]
    have ht : t.closed = true := by rw [← hcl]; exact hc
    rw [h1, foldl_byteStep_eq,
      foldl_charStep_closed (decodeStream t.dcarry c).1
        { t with dcarry := (decodeStream t.dcarry c).2 } ht]
    exact ⟨hf, hcl, fun hff => by rw [hff] at hc; exact Bool.noConfusion hc⟩
  · have hc' : s.closed = false := by simpa using hc
    obtain ⟨hst, hb⟩ := hrest hc'
    subst hst
    have h1 : chunkStep s c =
        chunkBody { s with dcarry := (decodeStream s.dcarry c).2 } (decodeStream s.dcarry c).1 := by
      simp [chunkStep, hc']
    rw [h1, foldl_byteStep_eq]
    obtain ⟨f1, f2, f3, f4⟩ :=
      chunkBody_eq_charFold (decodeStream s.dcarry c).1
        { s with dcarry := (decodeStream s.dcarry c).2 } hc' hb
    refine ⟨f1, f2, fun hff => ⟨?_, ?_⟩⟩
    · exact DecState.eqOfFields _ _ f3 (f4 hff) f1 f2
    · rw [chunkBody_buffer]
      exact splitNl_getLast_no_nl _

theorem DecRel_run (cs : List (List Nat)) (s t : DecState) (h : DecRel s t) :
    DecRel (cs.foldl chunkStep s) ((cs.flatten).foldl byteStep t) := by
  induction cs generalizing s t with
  | nil => exact h
  | cons c cs ih =>
    simp only [List.foldl_cons, List.flatten_cons, List.foldl_append]
    exact ih _ _ (DecRel_step s t c h)

theorem streamPostFrames_eq_byteRun (cs : List (List Nat)) :
    streamPostFrames cs = ((cs.flatten).foldl byteStep initDec).frames := by
  have h := DecRel_run cs initDec initDec ⟨rfl, rfl, fun _ => ⟨rfl, by simp [initDec]⟩⟩
  exact h.1

/-- C1: Chunk-boundary independence of the frame decoder.  For every two
chunkings of the same well-formed (valid UTF-8) byte stream — including
splits inside a multi-byte UTF-8 code point — `streamPost` produces the
identical ordered frame sequence: same Data payloads in the same order and
the same terminal outcome. -/
theorem c1_chunk_split_independence (cs1 cs2 : List (List Nat))
    (hv : validUtf8 cs1.flatten = true) (hj : cs1.flatten = cs2.flatten) :
    streamPostFrames cs1 = streamPostFrames cs2 := by
  rw [streamPostFrames_eq_byteRun, streamPostFrames_eq_byteRun, hj]

theorem c1_witness :
    validUtf8 ([[0x64, 0x61, 0x74, 0x61, 0x3A, 0x20, 0xC3], [0xA9, 0x0A]] : List (List Nat)).flatten = true ∧
      ([[0x64, 0x61, 0x74, 0x61, 0x3A, 0x20, 0xC3], [0xA9, 0x0A]] : List (List Nat)).flatten =
        ([[0x64, 0x61, 0x74, 0x61, 0x3A, 0x20, 0xC3, 0xA9, 0x0A]] : List (List Nat)).flatten ∧
      streamPostFrames [[0x64, 0x61, 0x74, 0x61, 0x3A, 0x20, 0xC3], [0xA9, 0x0A]] =
        streamPostFrames [[0x64, 0x61, 0x74, 0x61, 0x3A, 0x20, 0xC3, 0xA9, 0x0A]] :=
  ⟨by decide, by decide,
    c1_chunk_split_independence _ _ (by decide) (by decide)⟩


theorem utf8ByteStep_dcarryOk (dc : List Nat) (b : Nat) (h : dcarryOk dc) :
    dcarryOk (utf8ByteStep dc b).1 := by
  match dc with
  | [] =>
    simp only [utf8ByteStep]
    split_ifs <;> simp_all [dcarryOk] <;> omega
  | [l] =>
    simp only [utf8ByteStep]
    split_ifs <;> simp_all [dcarryOk] <;> omega
  | [l, m] =>
    simp only [utf8ByteStep]
    split_ifs <;> simp_all [dcarryOk] <;> omega
  | [l, m, n] =>
    simp only [utf8ByteStep]
    split_ifs <;> simp_all [dcarryOk]
  | a :: b2 :: c :: d :: rest =>
    exact absurd h (by simp [dcarryOk])

theorem utf8ByteStep_no_nl (dc : List Nat) (b : Nat) (h : dcarryOk dc) (hb : b ≠ 10) :
    ∀ c, (utf8ByteStep dc b).2 = some c → c ≠ 10 := by
  intro c hc
  match dc with
  | [] =>
    simp only [utf8ByteStep] at hc
    split_ifs at hc <;> simp_all <;> omega
  | [l] =>
    simp only [utf8ByteStep] at hc
    simp only [dcarryOk] at h
    split_ifs at hc <;> simp_all <;> omega
  | [l, m] =>
    simp only [utf8ByteStep] at hc
    simp only [dcarryOk] at h
    split_ifs at hc <;> simp_all <;> omega
  | [l, m, n] =>
    simp only [utf8ByteStep] at hc
    simp only [dcarryOk] at h
    split_ifs at hc <;> simp_all <;> omega
  | a :: b2 :: c2 :: d :: rest =>
    exact absurd h (by simp [dcarryOk])

theorem decodeStream_dcarryOk (bs : List Nat) (dc : List Nat) (h : dcarryOk dc) :
    dcarryOk (decodeStream dc bs).2 := by
  induction bs generalizing dc with
  | nil => exact h
  | cons b bs ih =>
    rcases hstep : utf8ByteStep dc b with ⟨dc2, copt⟩
    have h2 : dcarryOk dc2 := by
      have h3 := utf8ByteStep_dcarryOk dc b h
      rw [hstep] at h3
      exact h3
    cases copt with
    | none =>
      simp only [decodeStream, hstep]
      exact ih dc2 h2
    | some c =>
      simp only [decodeStream, hstep]
      exact ih dc2 h2

theorem decodeStream_no_nl (bs : List Nat) (dc : List Nat) (h : dcarryOk dc)
    (hbs : ∀ b ∈ bs, b ≠ 10) :
    ∀ c ∈ (decodeStream dc bs).1, c ≠ 10 := by
  induction bs generalizing dc with
  | nil => simp [decodeStream]
  | cons b bs ih =>
    have hb : b ≠ 10 := hbs b (List.mem_cons_self b bs)
    have hbs2 : ∀ x ∈ bs, x ≠ 10 := fun x hx => hbs x (List.mem_cons_of_mem b hx)
    rcases hstep : utf8ByteStep dc b with ⟨dc2, copt⟩
    have h2 : dcarryOk dc2 := by
      have h3 := utf8ByteStep_dcarryOk dc b h
      rw [hstep] at h3
      exact h3
    cases copt with
    | none =>
      simp only [decodeStream, hstep]
      exact ih dc2 h2 hbs2
    | some c0 =>
      have hc0 : c0 ≠ 10 := utf8ByteStep_no_nl dc b h hb c0 (by rw [hstep])
      simp only [decodeStream, hstep]
      intro c hcmem
      rcases List.mem_cons.mp hcmem with rfl | hcm
      · exact hc0
      · exact ih dc2 h2 hbs2 c hcm


theorem processLine_framesOk (s : DecState) (l : List Nat)
    (h : framesOk s.frames s.closed) :
    framesOk (processLine s l).frames (processLine s l).closed := by
  obtain ⟨he, h0, h1⟩ := h
  by_cases hc : s.closed
  · rw [processLine_closed s l hc]
    exact ⟨he, h0, h1⟩
  · have hc' : s.closed = false := by simpa using hc
    by_cases hd : dataMark.isPrefixOf l
    · have hpl : processLine s l =
          { s with frames := s.frames ++ [Frame.data (l.drop 6)] } := by
        simp [processLine, hc', hd]
      rw [hpl]
      refine ⟨?_, ?_, ?_⟩
      · rw [List.all_append, Bool.and_eq_true]
        exact ⟨he, by simp [Frame.isErrB]⟩
      · intro _
        simp [List.count_append, h0 hc']
      · intro hcontra
        rw [show ({ s with frames := s.frames ++ [Frame.data (l.drop 6)] } : DecState).closed
            = s.closed from rfl, hc'] at hcontra
        exact absurd hcontra (by simp)
    · by_cases he2 : doneMark.isPrefixOf l
      · have hpl : processLine s l =
            { s with frames := s.frames ++ [Frame.done], closed := true } := by
          simp [processLine, hc', hd, he2]
        rw [hpl]
        refine ⟨?_, ?_, ?_⟩
        · rw [List.all_append, Bool.and_eq_true]
          exact ⟨he, by simp [Frame.isErrB]⟩
        · intro hcontra
          exact absurd hcontra (by simp)
        · intro _
          exact ⟨s.frames, rfl, h0 hc'⟩
      · have hpl : processLine s l = s := by simp [processLine, hc', hd, he2]
        rw [hpl]
        exact ⟨he, h0, h1⟩

theorem foldl_processLine_framesOk (ls : List (List Nat)) (s : DecState)
    (h : framesOk s.frames s.closed) :
    framesOk (ls.foldl processLine s).frames (ls.foldl processLine s).closed := by
  induction ls generalizing s with
  | nil => exact h
  | cons l ls ih => exact ih _ (processLine_framesOk s l h)

theorem chunkBody_dcarry (s : DecState) (text : List Nat) :
    (chunkBody s text).dcarry = s.dcarry := by
  simp only [chunkBody, foldl_processLine_dcarry]

theorem chunkBody_framesOk (s : DecState) (text : List Nat)
    (h : framesOk s.frames s.closed) :
    framesOk (chunkBody s text).frames (chunkBody s text).closed := by
  simp only [chunkBody]
  exact foldl_processLine_framesOk _ _ h

theorem chunkStep_StateOk (s : DecState) (c : List Nat) (h : StateOk s) :
    StateOk (chunkStep s c) := by
  obtain ⟨hd, hb, hf⟩ := h
  by_cases hc : s.closed
  · have h1 : chunkStep s c = s := by simp [chunkStep, hc]
    rw [h1]
    exact ⟨hd, hb, hf⟩
  · have hc' : s.closed = false := by simpa using hc
    have h1 : chunkStep s c =
        chunkBody { s with dcarry := (decodeStream s.dcarry c).2 } (decodeStream s.dcarry c).1 := by
      simp [chunkStep, hc']
    rw [h1]
    refine ⟨?_, ?_, ?_⟩
    · rw [chunkBody_dcarry]
      exact decodeStream_dcarryOk c s.dcarry hd
    · rw [chunkBody_buffer]
      exact splitNl_getLast_no_nl _
    · exact chunkBody_framesOk _ _ hf

theorem run_StateOk (cs : List (List Nat)) : StateOk (cs.foldl chunkStep initDec) := by
  have hgen : ∀ (l : List (List Nat)) (s : DecState), StateOk s →
      StateOk (l.foldl chunkStep s) := by
    intro l
    induction l with
    | nil => exact fun s h => h
    | cons c l ih => exact fun s h => ih _ (chunkStep_StateOk s c h)
  refine hgen cs initDec ⟨trivial, by simp [initDec], ?_⟩
  refine ⟨by simp [initDec], fun _ => by simp [initDec], fun hcontra => ?_⟩
  simp [initDec] at hcontra

theorem foldl_chunkStep_closed (ls : List (List Nat)) (s : DecState) (h : s.closed = true) :
    ls.foldl chunkStep s = s := by
  induction ls with
  | nil => rfl
  | cons c ls ih =>
    simp only [List.foldl_cons, show chunkStep s c = s from by simp [chunkStep, h]]
    exact ih

theorem append_done_unique (a : Frame) (pre : List Frame) (hp : pre.count a = 0) :
    ∀ l1 l2 : List Frame, pre ++ [a] = l1 ++ a :: l2 → l1 = pre ∧ l2 = [] := by
  induction pre with
  | nil =>
    intro l1 l2 h
    cases l1 with
    | nil =>
      simp only [List.nil_append] at h
      rw [List.cons.injEq] at h
      exact ⟨rfl, h.2.symm⟩
    | cons x xs =>
      have hlen := congrArg List.length h
      simp only [List.length_cons, List.length_append, List.length_nil] at hlen
      omega
  | cons p ps ih =>
    intro l1 l2 h
    have hppa : (p == a) = false := by
      by_cases hq : p = a
      · subst hq
        simp [List.count_cons] at hp
      · simp [hq]
    have hps : ps.count a = 0 := by
      rw [List.count_cons, hppa] at hp
      simpa using hp
    cases l1 with
    | nil =>
      simp only [List.cons_append, List.nil_append] at h
      rw [List.cons.injEq] at h
      rw [h.1] at hppa
      simp at hppa
    | cons x xs =>
      simp only [List.cons_append] at h
      rw [List.cons.injEq] at h
      obtain ⟨h1, h2⟩ := h
      obtain ⟨hx, hl⟩ := ih hps xs l2 h2
      exact ⟨by rw [hx, ← h1], hl⟩

theorem chunkBody_no_nl (s : DecState) (text : List Nat) (h : 10 ∉ s.buffer ++ text) :
    chunkBody s text = { s with buffer := s.buffer ++ text } := by
  simp only [chunkBody]
  rw [splitNl_of_no_nl _ h]
  simp

/-- C5: Once the decoder has produced the terminal frame (on a complete line
starting with the terminal-event marker), it produces no further frames: the
terminal frame is the last frame, appears exactly once (the prefix before it
contains no terminal frame), and feeding any further chunks — a second
terminal marker, more data, or a close — leaves the output unchanged. -/
theorem c5_done_terminal (cs extra : List (List Nat)) (l1 l2 : List Frame)
    (h : streamPostFrames cs = l1 ++ Frame.done :: l2) :
    l2 = [] ∧ l1.count Frame.done = 0 ∧
      streamPostFrames (cs ++ extra) = streamPostFrames cs := by
  obtain ⟨hd, hb, he, h0, h1⟩ := run_StateOk cs
  have h' : (cs.foldl chunkStep initDec).frames = l1 ++ Frame.done :: l2 := h
  have hcl : (cs.foldl chunkStep initDec).closed = true := by
    cases hcc : (cs.foldl chunkStep initDec).closed
    · have hcount := h0 hcc
      rw [h'] at hcount
      simp [List.count_append, List.count_cons] at hcount
    · rfl
  obtain ⟨pre, hpre, hprecount⟩ := h1 hcl
  rw [hpre] at h'
  obtain ⟨hl1, hl2⟩ := append_done_unique Frame.done pre hprecount l1 l2 h'
  refine ⟨hl2, by rw [hl1]; exact hprecount, ?_⟩
  show ((cs ++ extra).foldl chunkStep initDec).frames = streamPostFrames cs
  rw [List.foldl_append, foldl_chunkStep_closed extra _ hcl]
  rfl

theorem c5_witness :
    streamPostFrames [asciiB "event: done\n"] = [] ++ Frame.done :: [] ∧
      (([] : List Frame) = [] ∧ ([] : List Frame).count Frame.done = 0 ∧
        streamPostFrames ([asciiB "event: done\n"] ++ [asciiB "data: X\n"]) =
          streamPostFrames [asciiB "event: done\n"]) :=
  ⟨by decide,
    c5_done_terminal [asciiB "event: done\n"] [asciiB "data: X\n"] [] [] (by decide)⟩

/-- C6: An end-of-stream without a terminal marker is an implicit successful
close: the decoder never produces an error frame (for any chunk sequence),
and in particular the single chunk `"data: Hi\n"` followed by the stream
closing yields exactly the one Data frame with payload `"Hi"`. -/
theorem c6_eos_without_marker (cs : List (List Nat)) :
    ((streamPostFrames cs).all fun f => ! f.isErrB) = true ∧
      streamPostFrames [asciiB "data: Hi\n"] = [Frame.data (asciiB "Hi")] := by
  refine ⟨?_, by decide⟩
  obtain ⟨hd, hb, he, h0, h1⟩ := run_StateOk cs
  exact he

/-- C7: The terminal marker split across two chunks (`"ev"` then
`"ent: done\n"`) yields exactly one terminal frame — and only after the full
line has been assembled: the first chunk alone yields no frame at all. -/
theorem c7_split_marker_single_done :
    streamPostFrames [asciiB "ev", asciiB "ent: done\n"] = [Frame.done] ∧
      streamPostFrames [asciiB "ev"] = [] := by
  exact ⟨by decide, by decide⟩

/-- C8: Decoding the chunks `"data: Hel"`, `"lo\ndata: Wo"`,
`"rld\nevent: done\n"` yields exactly `[Data "Hello", Data "World", Done]`:
the two reassembled lines with the data marker stripped, in arrival order,
followed by a single terminal frame. -/
theorem c8_three_chunk_example :
    streamPostFrames [asciiB "data: Hel", asciiB "lo\ndata: Wo", asciiB "rld\nevent: done\n"] =
      [Frame.data (asciiB "Hello"), Frame.data (asciiB "World"), Frame.done] := by
  decide

theorem chunkStep_not_closed (s : DecState) (c : List Nat) (h : s.closed = false) :
    chunkStep s c =
      chunkBody { s with dcarry := (decodeStream s.dcarry c).2 } (decodeStream s.dcarry c).1 := by
  simp [chunkStep, h]

theorem chunkStep_no_nl_frames (s : DecState) (c : List Nat) (h : s.closed = false)
    (hd : dcarryOk s.dcarry) (hb : 10 ∉ s.buffer) (hbn : ∀ b ∈ c, b ≠ 10) :
    (chunkStep s c).frames = s.frames := by
  rw [chunkStep_not_closed s c h]
  have hnn : 10 ∉ ({ s with dcarry := (decodeStream s.dcarry c).2 } : DecState).buffer ++
      (decodeStream s.dcarry c).1 := by
    intro hmem
    rcases List.mem_append.mp hmem with hm | hm
    · exact hb hm
    · exact decodeStream_no_nl c s.dcarry hd hbn 10 hm rfl
  rw [chunkBody_no_nl _ _ hnn]

/-- C9: A trailing chunk containing no newline byte contributes no frame: at
end-of-stream whatever remains in the buffer (even a complete-looking
`"data: ..."` fragment) is silently discarded, and a buffered segment is
framed only once a newline for it arrives. -/
theorem c9_trailing_buffer_discarded (cs : List (List Nat)) (t : List Nat)
    (h : t.count 10 = 0) :
    streamPostFrames (cs ++ [t]) = streamPostFrames cs ∧
      streamPostFrames [asciiB "data: Hi\ndata: tail"] = [Frame.data (asciiB "Hi")] ∧
      streamPostFrames [asciiB "data: Hi", asciiB "\n"] = [Frame.data (asciiB "Hi")] := by
  refine ⟨?_, by decide, by decide⟩
  obtain ⟨hd, hb, hfr⟩ := run_StateOk cs
  show ((cs ++ [t]).foldl chunkStep initDec).frames = (cs.foldl chunkStep initDec).frames
  rw [List.foldl_append]
  simp only [List.foldl_cons, List.foldl_nil]
  by_cases hc : (cs.foldl chunkStep initDec).closed
  · rw [show chunkStep (cs.foldl chunkStep initDec) t = cs.foldl chunkStep initDec from by
      simp [chunkStep, hc]]
  · have hc' : (cs.foldl chunkStep initDec).closed = false := by simpa using hc
    have hbn : ∀ b ∈ t, b ≠ 10 := by
      intro b hbm hb10
      subst hb10
      exact absurd hbm (List.count_eq_zero.mp h)
    exact chunkStep_no_nl_frames (cs.foldl chunkStep initDec) t hc' hd hb hbn

theorem c9_witness :
    (asciiB "data: tail").count 10 = 0 ∧
      (streamPostFrames ([asciiB "data: Hi\n"] ++ [asciiB "data: tail"]) =
          streamPostFrames [asciiB "data: Hi\n"] ∧
        streamPostFrames [asciiB "data: Hi\ndata: tail"] = [Frame.data (asciiB "Hi")] ∧
        streamPostFrames [asciiB "data: Hi", asciiB "\n"] = [Frame.data (asciiB "Hi")]) :=
  ⟨by decide,
    c9_trailing_buffer_discarded [asciiB "data: Hi\n"] (asciiB "data: tail") (by decide)⟩

theorem streamLoop_full (ps : List (List Nat)) (s : ChatState) (full : List Nat) :
    (streamLoop s full ps).2 = full ++ ps.flatten := by
  induction ps generalizing s full with
  | nil => simp [streamLoop]
  | cons p ps ih =>
    simp only [streamLoop]
    rw [ih]
    simp

theorem streamLoop_trace (ps : List (List Nat)) (s : ChatState) (full : List Nat) :
    (streamLoop s full ps).1 =
      (List.range ps.length).map
        (fun i => { s with streamText := full ++ (ps.take (i + 1)).flatten }) := by
  induction ps generalizing s full with
  | nil => simp [streamLoop]
  | cons p ps ih =>
    simp only [streamLoop]
    rw [ih]
    rw [List.length_cons, List.range_succ_eq_map]
    simp only [List.map_cons, List.map_map]
    congr 1
    · simp
    · refine List.map_congr_left ?_
      intro i hi
      simp [List.take_succ_cons, List.append_assoc]

theorem handleSendTrace_rejected (st : ChatState) (conv : Option Nat) (ps : List (List Nat))
    (out : StreamOutcome)
    (h : ((trimN st.input).isEmpty || conv.isNone || st.streaming) = true) :
    handleSendTrace st conv ps out = [st] := by
  simp [handleSendTrace, h]

theorem handleSendTrace_head_accepted (st : ChatState) (conv : Option Nat)
    (ps : List (List Nat)) (out : StreamOutcome)
    (hg : ((trimN st.input).isEmpty || conv.isNone || st.streaming) = false) :
    (handleSendTrace st conv ps out).head? = some (startedState st) := by
  unfold handleSendTrace
  simp only [hg, Bool.false_eq_true, if_false]
  cases out <;> simp

theorem handleSendTrace_length (st : ChatState) (conv : Option Nat) (ps : List (List Nat))
    (out : StreamOutcome)
    (hg : ((trimN st.input).isEmpty || conv.isNone || st.streaming) = false) :
    (handleSendTrace st conv ps out).length =
      (streamLoop (startedState st) [] ps).1.length + 3 := by
  unfold handleSendTrace
  simp only [hg, Bool.false_eq_true, if_false]
  cases out <;> simp [List.length_append]

theorem getLast?_cons_append_two (a : ChatState) (l : List ChatState) (x y : ChatState) :
    (a :: l ++ [x, y]).getLast? = some y := by
  rw [show a :: l ++ [x, y] = (a :: l ++ [x]) ++ [y] from by simp]
  exact List.getLast?_concat _

theorem handleSendFinal_ok (st : ChatState) (cid : Nat) (ps : List (List Nat))
    (h1 : (trimN st.input).isEmpty = false) (h2 : st.streaming = false) :
    handleSendFinal st (some cid) ps StreamOutcome.ok =
      { messages := st.messages ++ [{ role := Role.user, content := trimN st.input },
          { role := Role.assistant, content := ps.flatten }],
        input := [], streaming := false, streamText := [] } := by
  unfold handleSendFinal handleSendTrace
  simp only [h1, h2, Option.isNone_some, Bool.or_false, Bool.false_or, Bool.false_eq_true,
    if_false]
  rw [getLast?_cons_append_two]
  simp [startedState, streamLoop_full]

theorem handleSendFinal_err (st : ChatState) (cid : Nat) (ps : List (List Nat))
    (h1 : (trimN st.input).isEmpty = false) (h2 : st.streaming = false) :
    handleSendFinal st (some cid) ps StreamOutcome.err =
      { messages := st.messages ++ [{ role := Role.user, content := trimN st.input }],
        input := [], streaming := false, streamText := errText } := by
  unfold handleSendFinal handleSendTrace
  simp only [h1, h2, Option.isNone_some, Bool.or_false, Bool.false_or, Bool.false_eq_true,
    if_false]
  rw [getLast?_cons_append_two]
  simp [startedState, streamLoop_full]

theorem handleSendFinal_messages_extend (st : ChatState) (conv : Option Nat)
    (ps : List (List Nat)) (out : StreamOutcome) :
    ∃ tail, (handleSendFinal st conv ps out).messages = st.messages ++ tail := by
  by_cases hg : ((trimN st.input).isEmpty || conv.isNone || st.streaming) = true
  · refine ⟨[], ?_⟩
    simp [handleSendFinal, handleSendTrace_rejected st conv ps out hg]
  · have hg' : ((trimN st.input).isEmpty || conv.isNone || st.streaming) = false :=
      Bool.eq_false_iff.mpr hg
    obtain ⟨hab, h2⟩ := Bool.or_eq_false_iff.mp hg'
    obtain ⟨h1, hcv⟩ := Bool.or_eq_false_iff.mp hab
    cases conv with
    | none => simp at hcv
    | some cid =>
      cases out with
      | ok =>
        rw [handleSendFinal_ok st cid ps h1 h2]
        exact ⟨_, rfl⟩
      | err =>
        rw [handleSendFinal_err st cid ps h1 h2]
        exact ⟨_, rfl⟩

/-- C2: During a stream session the pending text equals the concatenation,
in arrival order, of the payloads received so far (the published state after
the i-th payload carries exactly the join of the first i payloads); on
normal completion the finalized assistant message appended to the transcript
carries the full concatenation, and the transcript is append-only
thereafter: any later send only extends the message list. -/
theorem c2_pending_content_concat (st : ChatState) (cid : Nat) (ps : List (List Nat))
    (conv2 : Option Nat) (ps2 : List (List Nat)) (out2 : StreamOutcome)
    (h1 : (trimN st.input).isEmpty = false) (h2 : st.streaming = false) :
    (streamLoop (startedState st) [] ps).1 =
      (List.range ps.length).map
        (fun i => { startedState st with streamText := (ps.take (i + 1)).flatten }) ∧
    handleSendFinal st (some cid) ps StreamOutcome.ok =
      { messages := st.messages ++ [{ role := Role.user, content := trimN st.input },
          { role := Role.assistant, content := ps.flatten }],
        input := [], streaming := false, streamText := [] } ∧
    ∃ tail, (handleSendFinal (handleSendFinal st (some cid) ps StreamOutcome.ok)
        conv2 ps2 out2).messages =
      (handleSendFinal st (some cid) ps StreamOutcome.ok).messages ++ tail := by
  refine ⟨?_, handleSendFinal_ok st cid ps h1 h2, ?_⟩
  · rw [streamLoop_trace]
    simp
  · exact handleSendFinal_messages_extend _ conv2 ps2 out2

theorem c2_witness :
    (trimN (asciiB " hi ")).isEmpty = false ∧
      (⟨[], asciiB " hi ", false, []⟩ : ChatState).streaming = false ∧
      ((streamLoop (startedState ⟨[], asciiB " hi ", false, []⟩) []
          [asciiB "a", asciiB "b"]).1 =
        (List.range 2).map
          (fun i => { startedState (⟨[], asciiB " hi ", false, []⟩ : ChatState) with
            streamText := (([asciiB "a", asciiB "b"].take (i + 1)).flatten) }) ∧
      handleSendFinal ⟨[], asciiB " hi ", false, []⟩ (some 0) [asciiB "a", asciiB "b"]
          StreamOutcome.ok =
        { messages := [] ++ [{ role := Role.user, content := trimN (asciiB " hi ") },
            { role := Role.assistant, content := ([asciiB "a", asciiB "b"] : List (List Nat)).flatten }],
          input := [], streaming := false, streamText := [] } ∧
      ∃ tail, (handleSendFinal (handleSendFinal ⟨[], asciiB " hi ", false, []⟩ (some 0)
          [asciiB "a", asciiB "b"] StreamOutcome.ok) (some 0) [] StreamOutcome.ok).messages =
        (handleSendFinal ⟨[], asciiB " hi ", false, []⟩ (some 0) [asciiB "a", asciiB "b"]
          StreamOutcome.ok).messages ++ tail) :=
  ⟨by decide, rfl,
    c2_pending_content_concat ⟨[], asciiB " hi ", false, []⟩ 0 [asciiB "a", asciiB "b"]
      (some 0) [] StreamOutcome.ok (by decide) rfl⟩

/-- C3: A transport error mid-stream leaves every previously finalized
message unchanged (the transcript is exactly the prior messages plus the
optimistic user message — no assistant message is appended for the failed
session), clears the streaming flag, and surfaces the recoverable error
text; a subsequent send with fresh non-blank input is accepted: it opens a
new session whose start state has the error text cleared. -/
theorem c3_transport_error_recovery (st : ChatState) (cid : Nat) (ps ps2 : List (List Nat))
    (t : List Nat) (out2 : StreamOutcome)
    (h1 : (trimN st.input).isEmpty = false) (h2 : st.streaming = false)
    (h3 : (trimN t).isEmpty = false) :
    handleSendFinal st (some cid) ps StreamOutcome.err =
      { messages := st.messages ++ [{ role := Role.user, content := trimN st.input }],
        input := [], streaming := false, streamText := errText } ∧
    (handleSendTrace { handleSendFinal st (some cid) ps StreamOutcome.err with input := t }
        (some cid) ps2 out2).head? =
      some (startedState
        { handleSendFinal st (some cid) ps StreamOutcome.err with input := t }) ∧
    (startedState
      { handleSendFinal st (some cid) ps StreamOutcome.err with input := t }).streamText = [] := by
  refine ⟨handleSendFinal_err st cid ps h1 h2, ?_, rfl⟩
  refine handleSendTrace_head_accepted _ _ ps2 out2 ?_
  rw [handleSendFinal_err st cid ps h1 h2]
  simp [h3]

theorem c3_witness :
    (trimN (asciiB "go")).isEmpty = false ∧
      (⟨[⟨Role.user, asciiB "old"⟩], asciiB "go", false, []⟩ : ChatState).streaming = false ∧
      (trimN (asciiB "again")).isEmpty = false ∧
      (handleSendFinal ⟨[⟨Role.user, asciiB "old"⟩], asciiB "go", false, []⟩ (some 7)
          [asciiB "partial"] StreamOutcome.err =
        { messages := [⟨Role.user, asciiB "old"⟩] ++
            [{ role := Role.user, content := trimN (asciiB "go") }],
          input := [], streaming := false, streamText := errText } ∧
      (handleSendTrace { handleSendFinal ⟨[⟨Role.user, asciiB "old"⟩], asciiB "go", false, []⟩
            (some 7) [asciiB "partial"] StreamOutcome.err with input := asciiB "again" }
          (some 7) [] StreamOutcome.ok).head? =
        some (startedState { handleSendFinal ⟨[⟨Role.user, asciiB "old"⟩], asciiB "go", false, []⟩
            (some 7) [asciiB "partial"] StreamOutcome.err with input := asciiB "again" }) ∧
      (startedState { handleSendFinal ⟨[⟨Role.user, asciiB "old"⟩], asciiB "go", false, []⟩
          (some 7) [asciiB "partial"] StreamOutcome.err with
            input := asciiB "again" }).streamText = []) :=
  ⟨by decide, rfl, by decide,
    c3_transport_error_recovery ⟨[⟨Role.user, asciiB "old"⟩], asciiB "go", false, []⟩ 7
      [asciiB "partial"] [] (asciiB "again") StreamOutcome.ok (by decide) rfl (by decide)⟩

/-- C4: A send issued while a prior send on the same conversation is still
streaming is rejected, not queued: the published state sequence is just the
unchanged current state — message list, pending buffer and streaming flag
untouched — and no second stream session is opened, so there is no
Streaming-to-Streaming transition. -/
theorem c4_send_while_streaming_rejected (st : ChatState) (conv : Option Nat)
    (ps : List (List Nat)) (out : StreamOutcome) (h : st.streaming = true) :
    handleSendTrace st conv ps out = [st] :=
  handleSendTrace_rejected st conv ps out (by simp [h])

theorem c4_witness :
    (⟨[], asciiB "next", true, asciiB "pending"⟩ : ChatState).streaming = true ∧
      handleSendTrace ⟨[], asciiB "next", true, asciiB "pending"⟩ (some 3)
          [asciiB "x"] StreamOutcome.ok =
        [⟨[], asciiB "next", true, asciiB "pending"⟩] :=
  ⟨rfl, c4_send_while_streaming_rejected ⟨[], asciiB "next", true, asciiB "pending"⟩
    (some 3) [asciiB "x"] StreamOutcome.ok rfl⟩

/-- C10: `handleSend` trims the input before use.  The call is a complete
no-op (the published state sequence is exactly the unchanged current state)
precisely when the trimmed input is empty, no conversation is active, or a
stream is in flight; otherwise the first published state appends a user
message whose content is the trimmed text — not the raw input — clears the
input, sets the streaming flag and resets the pending text. -/
theorem c10_send_guard_and_trim (st : ChatState) (conv : Option Nat) (ps : List (List Nat))
    (out : StreamOutcome) :
    (handleSendTrace st conv ps out).head? =
      some (if ((trimN st.input).isEmpty || conv.isNone || st.streaming) = true then st
        else { messages := st.messages ++ [{ role := Role.user, content := trimN st.input }],
               input := [], streaming := true, streamText := [] }) ∧
    (handleSendTrace st conv ps out = [st] ↔
      ((trimN st.input).isEmpty || conv.isNone || st.streaming) = true) := by
  by_cases hg : ((trimN st.input).isEmpty || conv.isNone || st.streaming) = true
  · rw [handleSendTrace_rejected st conv ps out hg]
    simp [hg]
  · have hg' : ((trimN st.input).isEmpty || conv.isNone || st.streaming) = false :=
      Bool.eq_false_iff.mpr hg
    refine ⟨?_, ?_, fun hcontra => absurd hcontra hg⟩
    · rw [handleSendTrace_head_accepted st conv ps out hg']
      simp [hg', startedState]
    · intro htr
      have hlen := congrArg List.length htr
      rw [handleSendTrace_length st conv ps out hg'] at hlen
      simp at hlen
